import Mathlib

/-!
Verification development for the coalescent-simulation core engine specified
for the `2020-ipcoal` workshop material.  The repository itself contains only
notebooks that call the external simulation libraries, so every component
below is modelled from the specification of the minimal core engine
(DemographyModel, CoalescentSampler, LocusLinkageEngine, SequenceMutator,
SimulationSession) and the behaviour demonstrated in the notebook.
All machine numbers are modelled as `Nat`; times are in generations.
-/

namespace Ipcoal

/-- Modelled from the spec: the explicit seedable random generator that every
session owns ("Randomness is sourced from an explicit seedable generator
passed into or owned by each session").  A simple linear-congruential state
over `Nat`, reduced mod `2 ^ 31`. -/
structure Rng where
  state : Nat
deriving Repr, DecidableEq

/-- Advance the generator one step, producing a pseudo-random `Nat` draw and
the successor state. -/
def Rng.next (r : Rng) : Nat × Rng :=
  let s := (r.state * 1103515245 + 12345) % 2147483648
  (s / 65536, ⟨s⟩)

/-- Modelled from the spec: a Genealogy is "a rooted binary tree over a fixed
set of sampled leaves" whose internal nodes carry coalescence times
(generations, backward from the present at time 0).  Leaves sit at time 0. -/
inductive Genealogy where
  | leaf : Nat → Genealogy
  | node : Nat → Genealogy → Genealogy → Genealogy
deriving Repr, DecidableEq

/-- The time of the most recent event at the top of a lineage: 0 for a leaf,
the coalescence time for an internal node. -/
def Genealogy.topTime : Genealogy → Nat
  | .leaf _ => 0
  | .node t _ _ => t

/-- Number of sampled leaves below (and including) this lineage. -/
def Genealogy.numLeaves : Genealogy → Nat
  | .leaf _ => 1
  | .node _ l r => l.numLeaves + r.numLeaves

/-- Number of internal (coalescence) nodes of the genealogy. -/
def Genealogy.numCoal : Genealogy → Nat
  | .leaf _ => 0
  | .node _ l r => l.numCoal + r.numCoal + 1

/-- The invariant "coalescence times are strictly increasing toward the
root": every internal node is strictly later than the top events of both of
its children. -/
def Genealogy.timesOk : Genealogy → Bool
  | .leaf _ => true
  | .node t l r =>
      decide (l.topTime < t) && decide (r.topTime < t) && l.timesOk && r.timesOk

/-- Total tree length: the sum over all branches of (parent time minus child
top time).  Used by the recombination engine to scale waiting distances. -/
def Genealogy.treeLen : Genealogy → Nat
  | .leaf _ => 0
  | .node t l r => (t - l.topTime) + (t - r.topTime) + l.treeLen + r.treeLen

/-- Modelled from the spec's error taxonomy (§7): ConfigurationError,
SimulationExhaustedError and the internal InvariantViolation.  Errors carry
no partial simulation data. -/
inductive SimErr where
  | configurationError
  | simulationExhausted
  | invariantViolation
deriving Repr, DecidableEq

/-- Modelled from the spec: the DemographyModel topology, "a rooted tree
whose edges each carry a population size and a time interval".  Each vertex
stores its index, its divergence time (0 for tips), the effective population
size of the edge above it, and for tips the sample multiplicity. -/
inductive SpTree where
  | tip : Nat → Nat → Nat → SpTree
  | node : Nat → Nat → Nat → SpTree → SpTree → SpTree
deriving Repr, DecidableEq

/-- Divergence time of the root vertex of a demography subtree (tips are at
the present, time 0). -/
def SpTree.rootTime : SpTree → Nat
  | .tip _ _ _ => 0
  | .node _ t _ _ _ => t

/-- Effective population size of the edge above this vertex. -/
def SpTree.neOf : SpTree → Nat
  | .tip _ ne _ => ne
  | .node _ _ ne _ _ => ne

/-- Total number of sampled leaves declared by the demography's tips. -/
def SpTree.numSamples : SpTree → Nat
  | .tip _ _ ns => ns
  | .node _ _ _ l r => l.numSamples + r.numSamples

/-- Validity of a demography: divergence times strictly increase from the
tips toward the root, every edge has a positive population size, and every
tip contributes at least one sample. -/
def SpTree.validDem : SpTree → Bool
  | .tip _ ne ns => decide (1 ≤ ne) && decide (1 ≤ ns)
  | .node _ t ne l r =>
      decide (l.rootTime < t) && decide (r.rootTime < t) && decide (1 ≤ ne)
        && l.validDem && r.validDem

/-- The initial active lineages contributed by one demography tip: `ns`
singleton leaf lineages at time 0. -/
def tipLeaves (ns : Nat) : List Genealogy :=
  (List.range ns).map Genealogy.leaf

/-- Merge the lineages at positions `i` and `i+1` of the active-lineage list
into one new internal node with coalescence time `t`. -/
def mergeAt (t : Nat) : Nat → List Genealogy → List Genealogy
  | _, [] => []
  | _, [g] => [g]
  | 0, a :: b :: rest => Genealogy.node t a b :: rest
  | i + 1, a :: rest => a :: mergeAt t i rest

/-- Modelled from the spec (§4.2): coalesce the active lineages of one
demography edge from time `t` until either the next coalescence would fall
beyond the edge's upper boundary `stop` (then the surviving lineages pass to
the parent edge) or fewer than two lineages remain.  Waiting times are
positive draws whose span scales with the edge's population size `ne`
(coalescence is slower in larger populations); the coalescing pair is chosen
by a second draw.  The fuel argument bounds the recursion by the number of
active lineages. -/
def coalesceUntilF (ne stop : Nat) : Nat → Nat → List Genealogy → Rng → List Genealogy × Rng
  | 0, _, lins, rng => (lins, rng)
  | fuel + 1, t, lins, rng =>
      if lins.length < 2 then (lins, rng)
      else
        let (r1, rng1) := rng.next
        let dt := 1 + r1 % (2 * ne + 1)
        if stop < t + dt then (lins, rng1)
        else
          let (r2, rng2) := rng1.next
          coalesceUntilF ne stop fuel (t + dt)
            (mergeAt (t + dt) (r2 % (lins.length - 1)) lins) rng2

/-- Bounded-interval coalescence with the fuel fixed to the lineage count. -/
def coalesceUntil (ne stop t : Nat) (lins : List Genealogy) (rng : Rng) :
    List Genealogy × Rng :=
  coalesceUntilF ne stop lins.length t lins rng

/-- Modelled from the spec (§4.2): above the demography root the edge is
unbounded, so active lineages coalesce "until exactly one active lineage
remains, which becomes the root". -/
def coalesceAllF (ne : Nat) : Nat → Nat → List Genealogy → Rng → List Genealogy × Rng
  | 0, _, lins, rng => (lins, rng)
  | fuel + 1, t, lins, rng =>
      if lins.length < 2 then (lins, rng)
      else
        let (r1, rng1) := rng.next
        let dt := 1 + r1 % (2 * ne + 1)
        let (r2, rng2) := rng1.next
        coalesceAllF ne fuel (t + dt)
          (mergeAt (t + dt) (r2 % (lins.length - 1)) lins) rng2

/-- Root-edge coalescence with the fuel fixed to the lineage count. -/
def coalesceAll (ne t : Nat) (lins : List Genealogy) (rng : Rng) :
    List Genealogy × Rng :=
  coalesceAllF ne lins.length t lins rng

/-- Modelled from the spec (§4.2): recursive structured-coalescent pass over
a demography subtree.  Returns the active lineages that survive, uncoalesced,
up to the time `stop` at which this subtree's edge ends, together with the
advanced generator.  At each demography node the children's surviving
lineages "merge into the parent branch's active set". -/
def samplePart : SpTree → Nat → Rng → List Genealogy × Rng
  | .tip _ ne ns, stop, rng => coalesceUntil ne stop 0 (tipLeaves ns) rng
  | .node _ t ne l r, stop, rng =>
      let (a, rng1) := samplePart l t rng
      let (b, rng2) := samplePart r t rng1
      coalesceUntil ne stop t (a ++ b) rng2

/-- The active lineages present at the demography root's time, after
coalescing within every edge below it. -/
def sampleLineages : SpTree → Rng → List Genealogy × Rng
  | .tip _ _ ns, rng => (tipLeaves ns, rng)
  | .node _ t _ l r, rng =>
      let (a, rng1) := samplePart l t rng
      let (b, rng2) := samplePart r t rng1
      (a ++ b, rng2)

/-- Modelled from the spec (§4.2): the CoalescentSampler.  "If the number of
sampled leaves is fewer than two, returns a single-node genealogy with no
coalescence events."  Otherwise lineages coalesce within the demography's
edges and then on the unbounded root edge until one lineage remains, which
becomes the root; should the root pass fail to leave exactly one lineage
this is an internal invariant violation (§7) and no partial genealogy is
returned. -/
def sampleGenealogy (d : SpTree) (rng : Rng) : Except SimErr Genealogy × Rng :=
  if d.numSamples < 2 then (.ok (.leaf 0), rng)
  else
    let (lins, rng1) := sampleLineages d rng
    match coalesceAll d.neOf d.rootTime lins rng1 with
    | ([g], rng2) => (.ok g, rng2)
    | (_, rng2) => (.error .invariantViolation, rng2)

/-- One row of a Locus: a genomic interval `[start, start + len)` together
with the Genealogy that spans it. -/
structure Segment where
  start : Nat
  len : Nat
  gen : Genealogy
deriving Repr, DecidableEq

/-- The intervals of a segment list are contiguous and non-overlapping
starting from position `p`: each segment starts where the previous one
ended. -/
def chainFrom : Nat → List Segment → Bool
  | _, [] => true
  | p, s :: ss => decide (s.start = p) && chainFrom (p + s.len) ss

/-- Sum of the interval lengths of a segment list. -/
def sumLens (ss : List Segment) : Nat :=
  (ss.map Segment.len).sum

/-- Draw the genealogy for the first interval of a locus from the
CoalescentSampler; a failed draw (internal invariant violation, unreachable
for valid demographies) contributes a degenerate single-node genealogy. -/
def firstGenealogy (d : SpTree) (rng : Rng) : Genealogy × Rng :=
  match sampleGenealogy d rng with
  | (.ok g, rng1) => (g, rng1)
  | (.error _, rng1) => (Genealogy.leaf 0, rng1)

/-- Modelled from the spec (§2): at a recombination breakpoint the engine
produces "a new, correlated genealogy for the next interval", "reusing
CoalescentSampler per breakpoint interval".  A failed draw retains the
current genealogy. -/
def nextGenealogy (d : SpTree) (g : Genealogy) (rng : Rng) : Genealogy × Rng :=
  match sampleGenealogy d rng with
  | (.ok g2, rng1) => (g2, rng1)
  | (.error _, rng1) => (g, rng1)

/-- Modelled from the spec (§4.3): the LocusLinkageEngine loop.  `pos` is the
next uncovered position and `rem` the number of sites still to cover.  With
recombination rate `rho = 0` no breakpoint is ever drawn and one segment
spans the rest of the locus.  Otherwise a positive waiting distance `w`
(whose span scales with `rho` times the current genealogy's total tree
length) is drawn; if it reaches past the end the final interval is truncated
to fit, otherwise a breakpoint is placed after `w` sites and a new correlated
genealogy is drawn for the next interval.  The fuel argument bounds the
recursion by the number of remaining sites. -/
def simLocusAuxF (d : SpTree) (rho : Nat) : Nat → Nat → Nat → Genealogy → Rng → List Segment × Rng
  | 0, pos, rem, g, rng => ([⟨pos, rem, g⟩], rng)
  | fuel + 1, pos, rem, g, rng =>
      if rho = 0 then ([⟨pos, rem, g⟩], rng)
      else
        let (r1, rng1) := rng.next
        let w := 1 + r1 % (rho * g.treeLen + 1)
        if rem ≤ w then ([⟨pos, rem, g⟩], rng1)
        else
          let (g2, rng2) := nextGenealogy d g rng1
          let (rest, rng3) := simLocusAuxF d rho fuel (pos + w) (rem - w) g2 rng2
          (⟨pos, w, g⟩ :: rest, rng3)

/-- Modelled from the spec (§4.3): produce the ordered (interval, Genealogy)
sequence of one locus of length `len`, starting from a fresh
CoalescentSampler draw. -/
def simLocus (d : SpTree) (rho len : Nat) (rng : Rng) : List Segment × Rng :=
  let (g0, rng1) := firstGenealogy d rng
  simLocusAuxF d rho len 0 len g0 rng1

/-- A simulated site is variable when not all leaf states are identical. -/
def isVariable : List Nat → Bool
  | [] => false
  | s :: ss => ss.any (fun x => decide (x ≠ s))

/-- Every coalescence time of the genealogy is 0, i.e. every branch has zero
length (mutation impossible). -/
def allTimesZero : Genealogy → Bool
  | .leaf _ => true
  | .node t l r => decide (t = 0) && allTimesZero l && allTimesZero r

/-- Modelled from the spec (§4.4): propagate a character state down one
branch.  With expected substitutions `mu * blen = 0` the transition matrix is
the identity and the state is kept; otherwise a draw decides the number of
mutation events on the branch and, when at least one occurred, a second draw
picks the resulting nucleotide state (0..3). -/
def evolveState (mu blen s : Nat) (rng : Rng) : Nat × Rng :=
  if mu * blen = 0 then (s, rng)
  else
    let (r1, rng1) := rng.next
    if r1 % (mu * blen + 1) = 0 then (s, rng1)
    else
      let (r2, rng2) := rng1.next
      (r2 % 4, rng2)

/-- Modelled from the spec (§4.4): "propagate states down each branch
independently", producing one state per leaf (in left-to-right leaf order).
`s` is the state at the top of `g`. -/
def evolveDown (mu : Nat) (s : Nat) : Genealogy → Rng → List Nat × Rng
  | .leaf _, rng => ([s], rng)
  | .node t l r, rng =>
      let (sl, rng1) := evolveState mu (t - l.topTime) s rng
      let (ll, rng2) := evolveDown mu sl l rng1
      let (sr, rng3) := evolveState mu (t - r.topTime) s rng2
      let (lr, rng4) := evolveDown mu sr r rng3
      (ll ++ lr, rng4)

/-- Modelled from the spec (§4.4): simulate one site on a genealogy —
"simulate character states at the root by drawing from the model's
stationary distribution, then propagate states down each branch". -/
def simSite (mu : Nat) (g : Genealogy) (rng : Rng) : List Nat × Rng :=
  let (r, rng1) := rng.next
  evolveDown mu (r % 4) g rng1

/-- Modelled from the spec (§4.4): the unlinked-SNP rejection loop.  Each
attempt draws a (fresh) genealogy from `draw` and simulates one site; a
variable site is returned together with the number of attempts used, a
monomorphic site consumes one retry, and an exhausted budget fails with
SimulationExhaustedError, discarding all partial draws. -/
def simSnpSite (mu : Nat) (draw : Rng → Genealogy × Rng) :
    Nat → Rng → Except SimErr (List Nat × Nat × Rng)
  | budget, rng =>
      let (g, rng1) := draw rng
      let (ss, rng2) := simSite mu g rng1
      if isVariable ss then .ok (ss, 1, rng2)
      else
        match budget with
        | 0 => .error .simulationExhausted
        | b + 1 =>
            match simSnpSite mu draw b rng2 with
            | .ok (ss2, k, rng3) => .ok (ss2, k + 1, rng3)
            | .error e => .error e

/-- Simulate `n` independent loci, concatenating their summary rows. -/
def simLociMany (d : SpTree) (rho len : Nat) : Nat → Rng → List Segment × Rng
  | 0, rng => ([], rng)
  | n + 1, rng =>
      let (segs, rng1) := simLocus d rho len rng
      let (rest, rng2) := simLociMany d rho len n rng1
      (segs ++ rest, rng2)

/-- Simulate `k` sites on one genealogy, one column of leaf states each. -/
def sitesFor (mu : Nat) (g : Genealogy) : Nat → Rng → List (List Nat) × Rng
  | 0, rng => ([], rng)
  | k + 1, rng =>
      let (site, rng1) := simSite mu g rng
      let (rest, rng2) := sitesFor mu g k rng1
      (site :: rest, rng2)

/-- Simulate the sequence columns of every segment of a locus set. -/
def seqsForSegs (mu : Nat) : List Segment → Rng → List (List Nat) × Rng
  | [], rng => ([], rng)
  | s :: ss, rng =>
      let (cols, rng1) := sitesFor mu s.gen s.len rng
      let (rest, rng2) := seqsForSegs mu ss rng1
      (cols ++ rest, rng2)

/-- Draw `n` unlinked variable sites; an exhausted budget discards the
partial column set. -/
def simSnpsMany (mu : Nat) (draw : Rng → Genealogy × Rng) (budget : Nat) :
    Nat → Rng → List (List Nat) × Rng
  | 0, rng => ([], rng)
  | n + 1, rng =>
      match simSnpSite mu draw budget rng with
      | .ok (ss, _, rng1) =>
          let (rest, rng2) := simSnpsMany mu draw budget n rng1
          (ss :: rest, rng2)
      | .error _ => ([], rng)

/-- Simulation parameters of a session: default locus length, mutation rate,
recombination rate and SNP retry budget. -/
structure Params where
  nsites : Nat
  mu : Nat
  recomb : Nat
  budget : Nat
deriving Repr, DecidableEq

/-- Modelled from the spec (§4.5): a SimulationSession owns the immutable
demography, its parameters, its own seeded generator, the tabular summary
(one row per produced genealogy/locus segment) and the aggregate sequence
matrix. -/
structure Session where
  demog : SpTree
  params : Params
  rng : Rng
  df : List Segment
  seqs : List (List Nat)
deriving Repr, DecidableEq

/-- Construct a session from a demography, parameters and a seed; the
generator is owned by the session and initialised from the seed alone. -/
def mkSession (d : SpTree) (p : Params) (seed : Nat) : Session :=
  { demog := d, params := p, rng := ⟨seed⟩, df := [], seqs := [] }

/-- The simulation operations a session exposes. -/
inductive SimOp where
  | simTrees : Nat → SimOp
  | simLoci : Nat → Nat → SimOp
  | simSnps : Nat → SimOp
deriving Repr, DecidableEq

/-- Modelled from the spec (§4.5) and the notebook: each simulation call
recomputes and stores the session's results, replacing whatever a previous
call stored, and advances only the session's own generator. -/
def applyOp (s : Session) : SimOp → Session
  | .simTrees n =>
      let (rows, rng1) := simLociMany s.demog s.params.recomb s.params.nsites n s.rng
      { s with df := rows, rng := rng1 }
  | .simLoci n len =>
      let (rows, rng1) := simLociMany s.demog s.params.recomb len n s.rng
      let (sq, rng2) := seqsForSegs s.params.mu rows rng1
      { s with df := rows, seqs := sq, rng := rng2 }
  | .simSnps n =>
      let (sq, rng1) :=
        simSnpsMany s.params.mu (firstGenealogy s.demog) s.params.budget n s.rng
      { s with seqs := sq, rng := rng1 }

/-- Run a list of operations on a session. -/
def runOps : Session → List SimOp → Session
  | s, [] => s
  | s, op :: ops => runOps (applyOp s op) ops

/-- Modelled from the spec (§5): the ambient world state (a stand-in for any
implicit global random state) threaded alongside a run.  The session sources
randomness only from its own generator, so the world passes through
untouched. -/
def runOpsG : Session → List SimOp → Nat → Session × Nat
  | s, [], w => (s, w)
  | s, op :: ops, w => runOpsG (applyOp s op) ops w

/-- First value bound to key `i` in an association list, or the default. -/
def lookupD (vs : List (Nat × Nat)) (i dflt : Nat) : Nat :=
  match vs.find? (fun p => decide (p.1 = i)) with
  | some p => p.2
  | none => dflt

/-- Modelled from the spec: the demography edit demonstrated in the notebook
(`set_node_values(feature="Ne", values=..., default=...)`), which "returns a
new edited copy of the tree object": every node mapped in `vs` receives its
mapped population size, every other node the default; nothing is mutated in
place. -/
def set_node_values : SpTree → List (Nat × Nat) → Nat → SpTree
  | .tip i _ ns, vs, dflt => .tip i (lookupD vs i dflt) ns
  | .node i t _ l r, vs, dflt =>
      .node i t (lookupD vs i dflt)
        (set_node_values l vs dflt) (set_node_values r vs dflt)

/-- Erase the population-size feature of every node (normalising it to 0),
exposing the topology, indices, times and sample counts alone. -/
def stripNe : SpTree → SpTree
  | .tip i _ ns => .tip i 0 ns
  | .node i t _ l r => .node i t 0 (stripNe l) (stripNe r)

/-- The population sizes of a demography in depth-first node order. -/
def neList : SpTree → List Nat
  | .tip _ ne _ => [ne]
  | .node _ _ ne l r => ne :: (neList l ++ neList r)

/-- The node indices of a demography in depth-first node order. -/
def idxList : SpTree → List Nat
  | .tip i _ _ => [i]
  | .node i _ _ l r => i :: (idxList l ++ idxList r)

/-- Modelled from the spec: an admixture edge — "(source node, destination
node, introgression time as a fraction of the shared overlapping interval,
migration proportion)". -/
structure AdmixEdge where
  src : Nat
  dest : Nat
  frac : Rat
  prop : Rat
deriving Repr, DecidableEq

/-- The time interval `[start, top)` of the edge above node `j` in the
demography, where `top = none` denotes the unbounded root edge; `pt` is the
parent time of the current subtree's root. -/
def findInterval : SpTree → Option Nat → Nat → Option (Nat × Option Nat)
  | .tip i _ _, pt, j => if i = j then some (0, pt) else none
  | .node i t _ l r, pt, j =>
      if i = j then some (t, pt)
      else
        match findInterval l (some t) j with
        | some x => some x
        | none => findInterval r (some t) j

/-- `lo` lies strictly below the (possibly unbounded) upper endpoint. -/
def beforeOpt : Nat → Option Nat → Bool
  | _, none => true
  | lo, some hi => decide (lo < hi)

/-- Minimum of two possibly-unbounded upper endpoints. -/
def minOpt : Option Nat → Option Nat → Option Nat
  | none, b => b
  | a, none => a
  | some a, some b => some (min a b)

/-- The source and destination lineages of an admixture edge coexist for a
nonempty span of time: both nodes exist and the intersection of their edge
intervals is nonempty. -/
def overlaps (d : SpTree) (e : AdmixEdge) : Bool :=
  match findInterval d none e.src, findInterval d none e.dest with
  | some (s1, t1), some (s2, t2) => beforeOpt (max s1 s2) (minOpt t1 t2)
  | _, _ => false

/-- Modelled from the spec (§4.1): an admixture edge is admissible exactly
when its timing fraction lies strictly inside (0,1) and its endpoints'
lineages overlap in time. -/
def validAdmix (d : SpTree) (e : AdmixEdge) : Bool :=
  decide ((0 : Rat) < e.frac) && decide (e.frac < 1) && overlaps d e

/-- A fully constructed demography model: topology plus admixture edges. -/
structure Model where
  demog : SpTree
  admix : List AdmixEdge
deriving Repr, DecidableEq

/-- Modelled from the spec (§4.1): construct an immutable demography model,
failing eagerly with ConfigurationError when any admixture edge's timing
fraction lies outside (0,1) or its lineages do not overlap in time.
Configuration errors are raised here, once, and never retried. -/
def mkModel (d : SpTree) (adm : List AdmixEdge) : Except SimErr Model :=
  if adm.all (validAdmix d) then .ok ⟨d, adm⟩ else .error .configurationError

/-- Sum of the leaf counts of a list of active lineages. -/
def leafSum (lins : List Genealogy) : Nat :=
  (lins.map Genealogy.numLeaves).sum

/-- The active-lineage invariant at backward time `c`: every lineage has
internally increasing coalescence times and its top event is no later than
`c`. -/
def GoodAt (c : Nat) (lins : List Genealogy) : Prop :=
  ∀ g ∈ lins, g.timesOk = true ∧ g.topTime ≤ c

end Ipcoal

namespace Ipcoal

theorem numCoal_add_one (g : Genealogy) : g.numCoal + 1 = g.numLeaves := by
  induction g with
  | leaf i => rfl
  | node t l r ihl ihr => simp [Genealogy.numCoal, Genealogy.numLeaves]; omega

@[simp]
theorem leafSum_nil : leafSum [] = 0 := rfl

@[simp]
theorem leafSum_cons (g : Genealogy) (L : List Genealogy) :
    leafSum (g :: L) = g.numLeaves + leafSum L := by
  simp [leafSum]

theorem leafSum_append (a b : List Genealogy) :
    leafSum (a ++ b) = leafSum a + leafSum b := by
  simp [leafSum]

theorem leafSum_mergeAt (t i : Nat) (L : List Genealogy) :
    leafSum (mergeAt t i L) = leafSum L := by
  induction L generalizing i with
  | nil => cases i <;> simp [mergeAt]
  | cons a rest ih =>
    cases rest with
    | nil => cases i <;> simp [mergeAt]
    | cons b rest2 =>
      cases i with
      | zero => simp [mergeAt, Genealogy.numLeaves]; omega
      | succ j =>
        have := ih j
        simp [mergeAt] at this ⊢
        omega

theorem length_mergeAt (t i : Nat) (L : List Genealogy) (h : i + 2 ≤ L.length) :
    (mergeAt t i L).length + 1 = L.length := by
  induction L generalizing i with
  | nil => simp at h
  | cons a rest ih =>
    cases rest with
    | nil => simp at h
    | cons b rest2 =>
      cases i with
      | zero => simp [mergeAt]
      | succ j =>
        have hj : j + 2 ≤ (b :: rest2).length := by simp at h ⊢; omega
        have := ih j hj
        simp [mergeAt] at this ⊢
        omega

theorem mergeAt_ne_nil (t i : Nat) (L : List Genealogy) (h : L ≠ []) :
    mergeAt t i L ≠ [] := by
  cases L with
  | nil => exact absurd rfl h
  | cons a rest =>
    cases rest with
    | nil => cases i <;> simp [mergeAt]
    | cons b rest2 => cases i <;> simp [mergeAt]

theorem goodAt_mono {c c2 : Nat} {L : List Genealogy}
    (h : GoodAt c L) (hcc : c ≤ c2) : GoodAt c2 L := by
  intro g hg
  exact ⟨(h g hg).1, le_trans (h g hg).2 hcc⟩

theorem goodAt_append {c : Nat} {a b : List Genealogy}
    (ha : GoodAt c a) (hb : GoodAt c b) : GoodAt c (a ++ b) := by
  intro g hg
  rcases List.mem_append.mp hg with h | h
  · exact ha g h
  · exact hb g h

theorem goodAt_mergeAt {c t : Nat} (hct : c < t) :
    ∀ (i : Nat) (L : List Genealogy), GoodAt c L → GoodAt t (mergeAt t i L) := by
  intro i L
  induction L generalizing i with
  | nil =>
    intro _ g h
    cases i <;> simp [mergeAt] at h
  | cons a rest ih =>
    intro hg
    have hga := hg a (by simp)
    have hrest : GoodAt c rest := fun g h => hg g (by simp [h])
    cases rest with
    | nil =>
      intro g h
      cases i with
      | zero =>
        simp [mergeAt] at h
        subst h
        exact ⟨hga.1, le_of_lt (lt_of_le_of_lt hga.2 hct)⟩
      | succ j =>
        simp [mergeAt] at h
        subst h
        exact ⟨hga.1, le_of_lt (lt_of_le_of_lt hga.2 hct)⟩
    | cons b rest2 =>
      have hgb := hg b (by simp)
      have hrest2 : GoodAt c rest2 := fun g h => hg g (by simp [h])
      cases i with
      | zero =>
        intro g h
        simp [mergeAt] at h
        rcases h with h | h
        · subst h
          refine ⟨?_, le_refl t⟩
          have h1 : a.topTime < t := lt_of_le_of_lt hga.2 hct
          have h2 : b.topTime < t := lt_of_le_of_lt hgb.2 hct
          simp [Genealogy.timesOk, h1, h2, hga.1, hgb.1]
        · exact ⟨(hrest2 g h).1, le_of_lt (lt_of_le_of_lt (hrest2 g h).2 hct)⟩
      | succ j =>
        intro g h
        simp only [mergeAt] at h
        rcases List.mem_cons.mp h with h | h
        · subst h
          exact ⟨hga.1, le_of_lt (lt_of_le_of_lt hga.2 hct)⟩
        · exact ih j (fun g2 h2 => hg g2 (by simp [h2])) g h

end Ipcoal

namespace Ipcoal

theorem coalesceUntilF_spec (ne stop : Nat) :
    ∀ (fuel t : Nat) (lins : List Genealogy) (rng : Rng),
      t ≤ stop → GoodAt t lins →
      leafSum (coalesceUntilF ne stop fuel t lins rng).1 = leafSum lins ∧
      GoodAt stop (coalesceUntilF ne stop fuel t lins rng).1 ∧
      ((coalesceUntilF ne stop fuel t lins rng).1 = [] → lins = []) := by
  intro fuel
  induction fuel with
  | zero =>
    intro t lins rng hts hg
    exact ⟨rfl, goodAt_mono hg hts, fun h => h⟩
  | succ n ih =>
    intro t lins rng hts hg
    by_cases hlen : lins.length < 2
    · have heq : coalesceUntilF ne stop (n + 1) t lins rng = (lins, rng) := by
        simp only [coalesceUntilF, if_pos hlen]
      rw [heq]
      exact ⟨rfl, goodAt_mono hg hts, fun h => h⟩
    · rcases hr1 : rng.next with ⟨r1, rng1⟩
      by_cases hstop : stop < t + (1 + r1 % (2 * ne + 1))
      · have heq : coalesceUntilF ne stop (n + 1) t lins rng = (lins, rng1) := by
          simp only [coalesceUntilF, if_neg hlen, hr1, if_pos hstop]
        rw [heq]
        exact ⟨rfl, goodAt_mono hg hts, fun h => h⟩
      · rcases hr2 : rng1.next with ⟨r2, rng2⟩
        have heq : coalesceUntilF ne stop (n + 1) t lins rng
            = coalesceUntilF ne stop n (t + (1 + r1 % (2 * ne + 1)))
              (mergeAt (t + (1 + r1 % (2 * ne + 1))) (r2 % (lins.length - 1)) lins)
              rng2 := by
          simp only [coalesceUntilF, if_neg hlen, hr1, if_neg hstop, hr2]
        rw [heq]
        have hdt : t < t + (1 + r1 % (2 * ne + 1)) := by omega
        have hgm := goodAt_mergeAt hdt (r2 % (lins.length - 1)) lins hg
        have hts2 : t + (1 + r1 % (2 * ne + 1)) ≤ stop := by omega
        obtain ⟨h1, h2, h3⟩ := ih (t + (1 + r1 % (2 * ne + 1)))
          (mergeAt (t + (1 + r1 % (2 * ne + 1))) (r2 % (lins.length - 1)) lins)
          rng2 hts2 hgm
        refine ⟨?_, h2, ?_⟩
        · rw [h1, leafSum_mergeAt]
        · intro h
          have hmerged := h3 h
          have hne2 : lins ≠ [] := by
            intro hnil
            rw [hnil] at hlen
            simp at hlen
          exact absurd hmerged
            (mergeAt_ne_nil (t + (1 + r1 % (2 * ne + 1))) (r2 % (lins.length - 1)) lins hne2)

theorem coalesceAllF_spec (ne : Nat) :
    ∀ (fuel t : Nat) (lins : List Genealogy) (rng : Rng),
      GoodAt t lins → 1 ≤ lins.length → lins.length ≤ fuel →
      ∃ g rng2, coalesceAllF ne fuel t lins rng = ([g], rng2) ∧
        g.numLeaves = leafSum lins ∧ g.timesOk = true := by
  intro fuel
  induction fuel with
  | zero =>
    intro t lins rng _ h1 h2
    omega
  | succ n ih =>
    intro t lins rng hg h1 h2
    by_cases hlen : lins.length < 2
    · rcases lins with _ | ⟨g, rest⟩
      · simp at h1
      · rcases rest with _ | ⟨g2, rest2⟩
        · refine ⟨g, rng, ?_, ?_, (hg g (by simp)).1⟩
          · simp [coalesceAllF]
          · simp
        · simp at hlen
          omega
    · rcases hr1 : rng.next with ⟨r1, rng1⟩
      rcases hr2 : rng1.next with ⟨r2, rng2⟩
      have heq : coalesceAllF ne (n + 1) t lins rng
          = coalesceAllF ne n (t + (1 + r1 % (2 * ne + 1)))
            (mergeAt (t + (1 + r1 % (2 * ne + 1))) (r2 % (lins.length - 1)) lins)
            rng2 := by
        simp only [coalesceAllF, if_neg hlen, hr1, hr2]
      rw [heq]
      have hdt : t < t + (1 + r1 % (2 * ne + 1)) := by omega
      have hgm := goodAt_mergeAt hdt (r2 % (lins.length - 1)) lins hg
      have hidx : r2 % (lins.length - 1) + 2 ≤ lins.length := by
        have : r2 % (lins.length - 1) < lins.length - 1 := Nat.mod_lt _ (by omega)
        omega
      have hmlen := length_mergeAt (t + (1 + r1 % (2 * ne + 1)))
        (r2 % (lins.length - 1)) lins hidx
      obtain ⟨g, rng3, heq, hnum, hok⟩ := ih (t + (1 + r1 % (2 * ne + 1)))
        (mergeAt (t + (1 + r1 % (2 * ne + 1))) (r2 % (lins.length - 1)) lins)
        rng2 hgm (by omega) (by omega)
      refine ⟨g, rng3, heq, ?_, hok⟩
      rw [hnum, leafSum_mergeAt]

theorem tipLeaves_leafSum_aux :
    ∀ l : List Nat, ((l.map Genealogy.leaf).map Genealogy.numLeaves).sum = l.length := by
  intro l
  induction l with
  | nil => rfl
  | cons a rest ih =>
    simp [Genealogy.numLeaves] at ih ⊢
    omega

theorem tipLeaves_leafSum (ns : Nat) : leafSum (tipLeaves ns) = ns := by
  unfold leafSum tipLeaves
  rw [tipLeaves_leafSum_aux, List.length_range]

theorem tipLeaves_length (ns : Nat) : (tipLeaves ns).length = ns := by
  simp [tipLeaves]

theorem goodAt_tipLeaves (c ns : Nat) : GoodAt c (tipLeaves ns) := by
  intro g hgm
  simp [tipLeaves] at hgm
  obtain ⟨k, _, hk⟩ := hgm
  subst hk
  exact ⟨rfl, Nat.zero_le c⟩

theorem samplePart_spec :
    ∀ (d : SpTree) (stop : Nat) (rng : Rng),
      d.validDem = true → d.rootTime ≤ stop →
      leafSum (samplePart d stop rng).1 = d.numSamples ∧
      GoodAt stop (samplePart d stop rng).1 ∧
      (samplePart d stop rng).1 ≠ [] := by
  intro d
  induction d with
  | tip i ne ns =>
    intro stop rng hv _
    simp only [SpTree.validDem, Bool.and_eq_true, decide_eq_true_eq] at hv
    simp only [samplePart, coalesceUntil]
    obtain ⟨h1, h2, h3⟩ := coalesceUntilF_spec ne stop (tipLeaves ns).length 0
      (tipLeaves ns) rng (Nat.zero_le stop) (goodAt_tipLeaves 0 ns)
    refine ⟨?_, h2, ?_⟩
    · rw [h1, tipLeaves_leafSum]; rfl
    · intro h
      have := h3 h
      have hlen : (tipLeaves ns).length = ns := tipLeaves_length ns
      rw [this] at hlen
      simp at hlen
      omega
  | node i t ne l r ihl ihr =>
    intro stop rng hv hts
    simp only [SpTree.validDem, Bool.and_eq_true, decide_eq_true_eq] at hv
    obtain ⟨⟨⟨⟨hlt, hrt⟩, hne⟩, hvl⟩, hvr⟩ := hv
    simp only [SpTree.rootTime] at hts
    rcases hA : samplePart l t rng with ⟨a, rng1⟩
    rcases hB : samplePart r t rng1 with ⟨b, rng2⟩
    simp only [samplePart, hA, hB, coalesceUntil]
    have hl := ihl t rng hvl (le_of_lt hlt)
    have hb := ihr t rng1 hvr (le_of_lt hrt)
    rw [hA] at hl
    rw [hB] at hb
    simp only at hl hb
    obtain ⟨hl1, hl2, hl3⟩ := hl
    obtain ⟨hb1, hb2, hb3⟩ := hb
    have hgood : GoodAt t (a ++ b) := goodAt_append hl2 hb2
    obtain ⟨h1, h2, h3⟩ := coalesceUntilF_spec ne stop (a ++ b).length t (a ++ b)
      rng2 hts hgood
    refine ⟨?_, h2, ?_⟩
    · rw [h1, leafSum_append, hl1, hb1]
      simp [SpTree.numSamples]
    · intro h
      have hnil := h3 h
      rcases List.append_eq_nil.mp hnil with ⟨ha2, _⟩
      exact hl3 ha2

end Ipcoal

namespace Ipcoal

theorem sampleLineages_spec :
    ∀ (d : SpTree) (rng : Rng), d.validDem = true → 1 ≤ d.numSamples →
      leafSum (sampleLineages d rng).1 = d.numSamples ∧
      GoodAt d.rootTime (sampleLineages d rng).1 ∧
      (sampleLineages d rng).1 ≠ [] := by
  intro d rng hv h1
  cases d with
  | tip i ne ns =>
    simp only [sampleLineages, SpTree.numSamples, SpTree.rootTime] at *
    refine ⟨tipLeaves_leafSum ns, goodAt_tipLeaves 0 ns, ?_⟩
    intro h
    have := tipLeaves_length ns
    rw [h] at this
    simp at this
    omega
  | node i t ne l r =>
    simp only [SpTree.validDem, Bool.and_eq_true, decide_eq_true_eq] at hv
    obtain ⟨⟨⟨⟨hlt, hrt⟩, hne⟩, hvl⟩, hvr⟩ := hv
    rcases hA : samplePart l t rng with ⟨a, rng1⟩
    rcases hB : samplePart r t rng1 with ⟨b, rng2⟩
    simp only [sampleLineages, hA, hB, SpTree.numSamples, SpTree.rootTime]
    have hl := samplePart_spec l t rng hvl (le_of_lt hlt)
    have hb := samplePart_spec r t rng1 hvr (le_of_lt hrt)
    rw [hA] at hl
    rw [hB] at hb
    simp only at hl hb
    obtain ⟨hl1, hl2, hl3⟩ := hl
    obtain ⟨hb1, hb2, hb3⟩ := hb
    refine ⟨?_, goodAt_append hl2 hb2, ?_⟩
    · rw [leafSum_append, hl1, hb1]
    · intro h
      rcases List.append_eq_nil.mp h with ⟨ha2, _⟩
      exact hl3 ha2

theorem sampleGenealogy_ok :
    ∀ (d : SpTree) (rng : Rng), d.validDem = true → 2 ≤ d.numSamples →
      ∃ g rng2, sampleGenealogy d rng = (Except.ok g, rng2) ∧
        g.numLeaves = d.numSamples ∧ g.timesOk = true := by
  intro d rng hv h2
  have hnot : ¬ d.numSamples < 2 := by omega
  have hlin := sampleLineages_spec d rng hv (by omega)
  rcases hL : sampleLineages d rng with ⟨lins, rng1⟩
  rw [hL] at hlin
  simp only at hlin
  obtain ⟨hsum, hgood, hne⟩ := hlin
  have hlen1 : 1 ≤ lins.length := List.length_pos.mpr hne
  obtain ⟨g, rng2, heq, hnum, hok⟩ := coalesceAllF_spec d.neOf lins.length
    d.rootTime lins rng1 hgood hlen1 (le_refl _)
  refine ⟨g, rng2, ?_, by rw [hnum, hsum], hok⟩
  simp only [sampleGenealogy, if_neg hnot, hL, coalesceAll, heq]

/-- A concrete valid two-population demography used by the witnesses. -/
def demPair : SpTree := .node 2 100 5 (.tip 0 5 1) (.tip 1 5 1)

/-- A concrete valid three-population demography with four sampled leaves. -/
def demTriple : SpTree :=
  .node 4 100 5 (.tip 0 5 2) (.node 3 50 5 (.tip 1 5 1) (.tip 2 5 1))

/-- A degenerate demography with a single sampled leaf. -/
def demSingle : SpTree := .tip 0 5 1

/-- Claim C1: for every valid DemographyModel and every sample of at least two
leaves, the CoalescentSampler returns a rooted binary genealogy (binary by
construction of `Genealogy`) with exactly (leaves - 1) internal coalescence
nodes and coalescence times strictly increasing from the leaves toward the
root. -/
theorem sampler_returns_binary_genealogy :
    ∀ (d : SpTree) (rng : Rng), d.validDem = true → 2 ≤ d.numSamples →
      ∃ g rng2, sampleGenealogy d rng = (Except.ok g, rng2) ∧
        g.numLeaves = d.numSamples ∧
        g.numCoal = d.numSamples - 1 ∧
        g.timesOk = true := by
  intro d rng hv h2
  obtain ⟨g, rng2, heq, hnum, hok⟩ := sampleGenealogy_ok d rng hv h2
  refine ⟨g, rng2, heq, hnum, ?_, hok⟩
  have := numCoal_add_one g
  omega

/-- Witness for C1 at a concrete demography and seed. -/
theorem sampler_returns_binary_genealogy_witness :
    demTriple.validDem = true ∧ 2 ≤ demTriple.numSamples ∧
    ∃ g rng2, sampleGenealogy demTriple ⟨42⟩ = (Except.ok g, rng2) ∧
      g.numLeaves = demTriple.numSamples ∧
      g.numCoal = demTriple.numSamples - 1 ∧
      g.timesOk = true :=
  ⟨by decide, by decide,
    sampler_returns_binary_genealogy demTriple ⟨42⟩ (by decide) (by decide)⟩

/-- Claim C9: if the number of sampled leaves is fewer than two, the
CoalescentSampler returns a single-node genealogy containing no coalescence
events rather than failing. -/
theorem few_samples_single_node :
    ∀ (d : SpTree) (rng : Rng), d.numSamples < 2 →
      sampleGenealogy d rng = (Except.ok (Genealogy.leaf 0), rng) ∧
      (Genealogy.leaf 0).numCoal = 0 := by
  intro d rng h
  exact ⟨by simp [sampleGenealogy, if_pos h], rfl⟩

/-- Witness for C9 at a concrete one-sample demography and seed. -/
theorem few_samples_single_node_witness :
    sampleGenealogy demSingle ⟨7⟩ = (Except.ok (Genealogy.leaf 0), ⟨7⟩) ∧
    (Genealogy.leaf 0).numCoal = 0 :=
  few_samples_single_node demSingle ⟨7⟩ (by decide)

/-- Claim C8: no simulation call returns a partial genealogy: whenever the sampler
succeeds it yields a single fully resolved root covering every sampled leaf,
with all coalescences completed and strictly increasing times; the error
values of `SimErr` carry no genealogy data, so a failed call exposes no
partial result. -/
theorem no_partial_genealogy :
    ∀ (d : SpTree) (rng : Rng) (g : Genealogy) (rng2 : Rng),
      d.validDem = true → sampleGenealogy d rng = (Except.ok g, rng2) →
      g.numLeaves = max d.numSamples 1 ∧
      g.numCoal + 1 = g.numLeaves ∧
      g.timesOk = true := by
  intro d rng g rng2 hv heq
  by_cases h2 : d.numSamples < 2
  · have hred : sampleGenealogy d rng = (Except.ok (Genealogy.leaf 0), rng) := by
      simp [sampleGenealogy, if_pos h2]
    rw [hred] at heq
    simp only [Prod.mk.injEq, Except.ok.injEq] at heq
    obtain ⟨hg, _⟩ := heq
    subst hg
    refine ⟨?_, rfl, rfl⟩
    have : max d.numSamples 1 = 1 := Nat.max_eq_right (by omega)
    rw [this]
    rfl
  · obtain ⟨g2, rng3, heq2, hnum, hok⟩ := sampleGenealogy_ok d rng hv (by omega)
    rw [heq2] at heq
    simp only [Prod.mk.injEq, Except.ok.injEq] at heq
    obtain ⟨hg, _⟩ := heq
    subst hg
    refine ⟨?_, numCoal_add_one g2, hok⟩
    rw [hnum, Nat.max_eq_left (by omega)]

/-- Witness for C8 at a concrete demography, seed and result. -/
theorem no_partial_genealogy_witness :
    (Genealogy.node 108 (Genealogy.leaf 0) (Genealogy.leaf 0)).numLeaves
        = max demPair.numSamples 1 ∧
    (Genealogy.node 108 (Genealogy.leaf 0) (Genealogy.leaf 0)).numCoal + 1
        = (Genealogy.node 108 (Genealogy.leaf 0) (Genealogy.leaf 0)).numLeaves ∧
    (Genealogy.node 108 (Genealogy.leaf 0) (Genealogy.leaf 0)).timesOk = true :=
  no_partial_genealogy demPair ⟨42⟩
    (Genealogy.node 108 (Genealogy.leaf 0) (Genealogy.leaf 0)) ⟨1116302264⟩
    (by decide) (by rfl)

end Ipcoal

namespace Ipcoal

theorem simLocusAuxF_chain (d : SpTree) (rho : Nat) :
    ∀ (fuel pos rem : Nat) (g : Genealogy) (rng : Rng),
      chainFrom pos (simLocusAuxF d rho fuel pos rem g rng).1 = true ∧
      sumLens (simLocusAuxF d rho fuel pos rem g rng).1 = rem := by
  intro fuel
  induction fuel with
  | zero =>
    intro pos rem g rng
    simp [simLocusAuxF, chainFrom, sumLens]
  | succ n ih =>
    intro pos rem g rng
    by_cases hz : rho = 0
    · have heq : simLocusAuxF d rho (n + 1) pos rem g rng = ([⟨pos, rem, g⟩], rng) := by
        simp only [simLocusAuxF, if_pos hz]
      rw [heq]
      simp [chainFrom, sumLens]
    · rcases hr1 : rng.next with ⟨r1, rng1⟩
      by_cases hrem : rem ≤ 1 + r1 % (rho * g.treeLen + 1)
      · have heq : simLocusAuxF d rho (n + 1) pos rem g rng = ([⟨pos, rem, g⟩], rng1) := by
          simp only [simLocusAuxF, if_neg hz, hr1, if_pos hrem]
        rw [heq]
        simp [chainFrom, sumLens]
      · rcases hg2 : nextGenealogy d g rng1 with ⟨g2, rng2⟩
        rcases hrest : simLocusAuxF d rho n (pos + (1 + r1 % (rho * g.treeLen + 1)))
            (rem - (1 + r1 % (rho * g.treeLen + 1))) g2 rng2 with ⟨rest, rng3⟩
        have heq : simLocusAuxF d rho (n + 1) pos rem g rng
            = (⟨pos, 1 + r1 % (rho * g.treeLen + 1), g⟩ :: rest, rng3) := by
          simp only [simLocusAuxF, if_neg hz, hr1, if_neg hrem, hg2, hrest]
        rw [heq]
        have hih := ih (pos + (1 + r1 % (rho * g.treeLen + 1)))
          (rem - (1 + r1 % (rho * g.treeLen + 1))) g2 rng2
        rw [hrest] at hih
        simp only at hih
        obtain ⟨hc, hs⟩ := hih
        constructor
        · simp only [chainFrom, Bool.and_eq_true, decide_eq_true_eq]
          exact ⟨by trivial, hc⟩
        · simp only [sumLens, List.map_cons, List.sum_cons] at hs ⊢
          omega

theorem simLocusAuxF_rho_zero (d : SpTree) :
    ∀ (fuel pos rem : Nat) (g : Genealogy) (rng : Rng),
      simLocusAuxF d 0 fuel pos rem g rng = ([⟨pos, rem, g⟩], rng) := by
  intro fuel pos rem g rng
  cases fuel with
  | zero => rfl
  | succ n => simp [simLocusAuxF]

theorem simLocus_rho_zero (d : SpTree) (len : Nat) (rng : Rng) :
    (simLocus d 0 len rng).1 = [⟨0, len, (firstGenealogy d rng).1⟩] := by
  rcases hg : firstGenealogy d rng with ⟨g0, rng1⟩
  simp only [simLocus, hg, simLocusAuxF_rho_zero]

/-- Claim C2: the LocusLinkageEngine produces, for a locus of requested length
`len`, an ordered sequence of (interval, Genealogy) pairs whose intervals are
contiguous, non-overlapping and jointly cover `[0, len)` (so the interval
lengths sum to exactly `len`); with recombination rate zero the sequence is a
single interval spanning the whole locus. -/
theorem locus_intervals_partition :
    ∀ (d : SpTree) (rho len : Nat) (rng : Rng),
      chainFrom 0 (simLocus d rho len rng).1 = true ∧
      sumLens (simLocus d rho len rng).1 = len ∧
      (rho = 0 → ∃ g, (simLocus d rho len rng).1 = [⟨0, len, g⟩]) := by
  intro d rho len rng
  rcases hg : firstGenealogy d rng with ⟨g0, rng1⟩
  have h := simLocusAuxF_chain d rho len 0 len g0 rng1
  constructor
  · simp only [simLocus, hg]
    exact h.1
  constructor
  · simp only [simLocus, hg]
    exact h.2
  · intro hz
    subst hz
    exact ⟨(firstGenealogy d rng).1, simLocus_rho_zero d len rng⟩

/-- Witness for C2 at a concrete demography, rate, length and seed. -/
theorem locus_intervals_partition_witness :
    chainFrom 0 (simLocus demTriple 1 20 ⟨7⟩).1 = true ∧
    sumLens (simLocus demTriple 1 20 ⟨7⟩).1 = 20 ∧
    (∃ g, (simLocus demTriple 0 20 ⟨7⟩).1 = [⟨0, 20, g⟩]) :=
  ⟨(locus_intervals_partition demTriple 1 20 ⟨7⟩).1,
   (locus_intervals_partition demTriple 1 20 ⟨7⟩).2.1,
   (locus_intervals_partition demTriple 0 20 ⟨7⟩).2.2 rfl⟩

theorem simLociMany_rho_zero_length (d : SpTree) (len : Nat) :
    ∀ (n : Nat) (rng : Rng), ((simLociMany d 0 len n rng).1).length = n := by
  intro n
  induction n with
  | zero =>
    intro rng
    rfl
  | succ k ih =>
    intro rng
    rcases hseg : simLocus d 0 len rng with ⟨segs, rng1⟩
    rcases hrest : simLociMany d 0 len k rng1 with ⟨rest, rng2⟩
    have heq : simLociMany d 0 len (k + 1) rng = (segs ++ rest, rng2) := by
      simp only [simLociMany, hseg, hrest]
    rw [heq]
    have hlen1 : segs.length = 1 := by
      have := simLocus_rho_zero d len rng
      rw [hseg] at this
      simp only at this
      rw [this]
      rfl
    have := ih rng1
    rw [hrest] at this
    simp only at this
    simp [hlen1, this]
    omega

/-- Claim C10: a simulation call replaces the session's previously stored results
rather than appending to them: after `simTrees n` with zero recombination the
session's summary table holds exactly `n` genealogy rows, regardless of what
any earlier call on the same session had stored. -/
theorem sim_trees_replaces_results :
    ∀ (s : Session) (n : Nat), s.params.recomb = 0 →
      ((applyOp s (SimOp.simTrees n)).df).length = n := by
  intro s n hz
  simp only [applyOp]
  rcases hrows : simLociMany s.demog s.params.recomb s.params.nsites n s.rng
    with ⟨rows, rng1⟩
  simp only
  have := simLociMany_rho_zero_length s.demog s.params.nsites n s.rng
  rw [hz] at hrows
  rw [hrows] at this
  simp only at this
  exact this

/-- Witness for C10: a session whose table already holds a stale row still
reports exactly `n` rows after `simTrees n`. -/
theorem sim_trees_replaces_results_witness :
    ((applyOp
        { demog := demPair, params := ⟨1, 1, 0, 3⟩, rng := ⟨9⟩,
          df := [⟨0, 1, Genealogy.leaf 0⟩], seqs := [] }
        (SimOp.simTrees 3)).df).length = 3 :=
  sim_trees_replaces_results
    { demog := demPair, params := ⟨1, 1, 0, 3⟩, rng := ⟨9⟩,
      df := [⟨0, 1, Genealogy.leaf 0⟩], seqs := [] } 3 rfl

end Ipcoal

namespace Ipcoal

theorem evolveState_zero_rate (blen s : Nat) (rng : Rng) :
    evolveState 0 blen s rng = (s, rng) := by
  simp [evolveState]

theorem evolveState_zero_branch (mu s : Nat) (rng : Rng) :
    evolveState mu 0 s rng = (s, rng) := by
  simp [evolveState]

theorem evolveDown_zero_rate :
    ∀ (g : Genealogy) (s : Nat) (rng : Rng),
      evolveDown 0 s g rng = (List.replicate g.numLeaves s, rng) := by
  intro g
  induction g with
  | leaf i =>
    intro s rng
    rfl
  | node t l r ihl ihr =>
    intro s rng
    simp only [evolveDown, evolveState_zero_rate, ihl, ihr, Genealogy.numLeaves]
    rw [List.replicate_add]

/-- Claim C7: running the SequenceMutator with substitution rate 0 yields, at every
site, identical states across all leaves, each equal to the state drawn at
the root from the model's stationary distribution (the first generator draw
reduced to a nucleotide). -/
theorem mutation_rate_zero_idle :
    ∀ (g : Genealogy) (rng : Rng),
      (simSite 0 g rng).1 = List.replicate g.numLeaves (rng.next.1 % 4) := by
  intro g rng
  rcases hr : rng.next with ⟨r, rng1⟩
  simp only [simSite, hr, evolveDown_zero_rate]

theorem evolveDown_zero_branches :
    ∀ (g : Genealogy) (mu s : Nat) (rng : Rng), allTimesZero g = true →
      evolveDown mu s g rng = (List.replicate g.numLeaves s, rng) := by
  intro g
  induction g with
  | leaf i =>
    intro mu s rng _
    rfl
  | node t l r ihl ihr =>
    intro mu s rng hz
    simp only [allTimesZero, Bool.and_eq_true, decide_eq_true_eq] at hz
    obtain ⟨⟨ht, hzl⟩, hzr⟩ := hz
    subst ht
    have hbl : (0 : Nat) - l.topTime = 0 := Nat.zero_sub _
    have hbr : (0 : Nat) - r.topTime = 0 := Nat.zero_sub _
    simp only [evolveDown, hbl, hbr, evolveState_zero_branch, ihl mu s rng hzl,
      ihr mu s rng hzr, Genealogy.numLeaves]
    rw [List.replicate_add]

theorem isVariable_replicate (n s : Nat) : isVariable (List.replicate n s) = false := by
  cases n with
  | zero => rfl
  | succ k =>
    simp only [List.replicate_succ, isVariable, List.any_eq_false]
    intro x hx
    simp only [List.mem_replicate] at hx
    simp [hx.2]

theorem simSite_zero_branches (mu : Nat) (g : Genealogy) (rng : Rng)
    (hz : allTimesZero g = true) :
    isVariable (simSite mu g rng).1 = false := by
  rcases hr : rng.next with ⟨r, rng1⟩
  simp only [simSite, hr, evolveDown_zero_branches g mu (r % 4) rng1 hz]
  exact isVariable_replicate _ _

/-- Claim C3: the unlinked-SNP retry loop is bounded — a successful `simSnpSite`
uses at most (budget + 1) attempts, i.e. at most `budget` retries — and with
a retry budget of 0 and a genealogy with zero branch length everywhere the
call fails with SimulationExhaustedError (deterministically: the model is a
pure function of the seed). -/
theorem snp_retry_bounded_exhaustion :
    (∀ (mu : Nat) (draw : Rng → Genealogy × Rng) (budget : Nat) (rng : Rng)
        (out : List Nat × Nat × Rng),
        simSnpSite mu draw budget rng = Except.ok out → out.2.1 ≤ budget + 1) ∧
    (∀ (mu : Nat) (g : Genealogy) (rng : Rng), allTimesZero g = true →
        simSnpSite mu (fun r => (g, r)) 0 rng
          = Except.error SimErr.simulationExhausted) := by
  constructor
  · intro mu draw budget
    induction budget with
    | zero =>
      intro rng out heq
      rw [simSnpSite] at heq
      rcases hd : draw rng with ⟨g, rng1⟩
      rw [hd] at heq
      simp only at heq
      rcases hs : simSite mu g rng1 with ⟨ss, rng2⟩
      rw [hs] at heq
      simp only at heq
      by_cases hvar : isVariable ss = true
      · rw [if_pos hvar] at heq
        simp only [Except.ok.injEq] at heq
        subst heq
        simp
      · rw [if_neg hvar] at heq
        cases heq
    | succ b ih =>
      intro rng out heq
      rw [simSnpSite] at heq
      rcases hd : draw rng with ⟨g, rng1⟩
      rw [hd] at heq
      simp only at heq
      rcases hs : simSite mu g rng1 with ⟨ss, rng2⟩
      rw [hs] at heq
      simp only at heq
      by_cases hvar : isVariable ss = true
      · rw [if_pos hvar] at heq
        simp only [Except.ok.injEq] at heq
        subst heq
        simp
      · rw [if_neg hvar] at heq
        rcases hrec : simSnpSite mu draw b rng2 with e2 | out2
        · rw [hrec] at heq
          simp at heq
        · rcases out2 with ⟨ss2, k, rng3⟩
          rw [hrec] at heq
          simp only [Except.ok.injEq] at heq
          subst heq
          have := ih rng2 (ss2, k, rng3) hrec
          simp only at this ⊢
          omega
  · intro mu g rng hz
    rw [simSnpSite]
    rcases hs : simSite mu g rng with ⟨ss, rng2⟩
    have hvar := simSite_zero_branches mu g rng hz
    rw [hs] at hvar
    simp only at hvar
    simp only [hs, hvar]
    rfl

/-- Witness for C3: a concrete successful draw within budget, and a concrete
deterministic exhaustion with budget 0 on an all-zero genealogy. -/
theorem snp_retry_bounded_exhaustion_witness :
    (((([2, 1] : List Nat), (1 : Nat), (Rng.mk 273505290)) : List Nat × Nat × Rng).2.1
        ≤ 5 + 1) ∧
    simSnpSite 0 (fun r => (Genealogy.node 0 (Genealogy.leaf 0) (Genealogy.leaf 1), r))
        0 ⟨3⟩ = Except.error SimErr.simulationExhausted :=
  ⟨snp_retry_bounded_exhaustion.1 1 (firstGenealogy demPair) 5 ⟨3⟩
      (([2, 1] : List Nat), (1 : Nat), (Rng.mk 273505290)) (by rfl),
   snp_retry_bounded_exhaustion.2 0
      (Genealogy.node 0 (Genealogy.leaf 0) (Genealogy.leaf 1)) ⟨3⟩ (by rfl)⟩

theorem runOpsG_ignores_world :
    ∀ (ops : List SimOp) (s : Session) (w : Nat),
      runOpsG s ops w = (runOps s ops, w) := by
  intro ops
  induction ops with
  | nil =>
    intro s w
    rfl
  | cons op rest ih =>
    intro s w
    simp only [runOpsG, runOps, ih]

/-- Claim C4: two-run determinism — two sessions constructed from the same
demography, parameters and seed produce bit-identical genealogy tables and
sequence matrices under the same operation sequence, whatever the ambient
(global random) state of either run: no implicit global state influences the
result, because each session owns its explicitly seeded generator. -/
theorem session_two_run_determinism :
    ∀ (d : SpTree) (p : Params) (seed : Nat) (ops : List SimOp) (w1 w2 : Nat),
      (runOpsG (mkSession d p seed) ops w1).1.df
          = (runOpsG (mkSession d p seed) ops w2).1.df ∧
      (runOpsG (mkSession d p seed) ops w1).1.seqs
          = (runOpsG (mkSession d p seed) ops w2).1.seqs := by
  intro d p seed ops w1 w2
  rw [runOpsG_ignores_world, runOpsG_ignores_world]
  exact ⟨rfl, rfl⟩

end Ipcoal

namespace Ipcoal

/-- Claim C5: every demography edit returns a new model value and touches only the
edited feature: the edited tree agrees with the original on topology, node
indices, divergence times and sample counts, and its population sizes are
exactly the mapped value for mapped nodes and the default elsewhere.  The
original tree value is untouched — `set_node_values` is a pure function, so
no in-place mutation is possible in this model. -/
theorem demography_edit_copy :
    ∀ (d : SpTree) (vs : List (Nat × Nat)) (dflt : Nat),
      stripNe (set_node_values d vs dflt) = stripNe d ∧
      neList (set_node_values d vs dflt)
          = (idxList d).map (fun i => lookupD vs i dflt) := by
  intro d vs dflt
  induction d with
  | tip i ne ns => simp [set_node_values, stripNe, neList, idxList]
  | node i t ne l r ihl ihr =>
    simp [set_node_values, stripNe, neList, idxList, ihl.1, ihl.2, ihr.1, ihr.2]

theorem sampler_no_config_error :
    ∀ (d : SpTree) (rng : Rng),
      (sampleGenealogy d rng).1 ≠ Except.error SimErr.configurationError := by
  intro d rng
  by_cases h2 : d.numSamples < 2
  · simp [sampleGenealogy, if_pos h2]
  · rcases hL : sampleLineages d rng with ⟨lins, rng1⟩
    rcases hC : coalesceAll d.neOf d.rootTime lins rng1 with ⟨out, rng2⟩
    simp only [sampleGenealogy, if_neg h2, hL, hC]
    rcases out with _ | ⟨g, rest⟩
    · simp
    · rcases rest with _ | ⟨g2, rest2⟩
      · simp
      · simp

/-- Claim C6: DemographyModel construction fails with ConfigurationError exactly
when some admixture edge's timing fraction lies outside the open interval
(0,1) or its source and destination lineages do not overlap in time; these
errors are raised eagerly by the constructor, and the sampler itself never
produces a ConfigurationError. -/
theorem admixture_configuration_error :
    ∀ (d : SpTree) (adm : List AdmixEdge),
      ((mkModel d adm = Except.error SimErr.configurationError) ↔
        ∃ e ∈ adm, ¬((0 : Rat) < e.frac ∧ e.frac < 1 ∧ overlaps d e = true)) ∧
      (∀ rng : Rng,
        (sampleGenealogy d rng).1 ≠ Except.error SimErr.configurationError) := by
  intro d adm
  constructor
  · constructor
    · intro h
      rw [mkModel] at h
      by_cases hall : adm.all (validAdmix d) = true
      · rw [if_pos hall] at h
        simp at h
      · rw [List.all_eq_true] at hall
        push_neg at hall
        obtain ⟨e, he, hv⟩ := hall
        refine ⟨e, he, ?_⟩
        intro hc
        apply hv
        simp only [validAdmix, Bool.and_eq_true, decide_eq_true_eq]
        exact ⟨⟨hc.1, hc.2.1⟩, hc.2.2⟩
    · intro h
      obtain ⟨e, he, hv⟩ := h
      have hnall : ¬ adm.all (validAdmix d) = true := by
        intro hall
        rw [List.all_eq_true] at hall
        have hve := hall e he
        simp only [validAdmix, Bool.and_eq_true, decide_eq_true_eq] at hve
        exact hv ⟨hve.1.1, hve.1.2, hve.2⟩
      rw [mkModel, if_neg hnall]
  · exact sampler_no_config_error d

/-- Witness for C6: a fraction of 2 is rejected at construction with a
ConfigurationError, and a concrete sampler call never reports one. -/
theorem admixture_configuration_error_witness :
    mkModel demPair [⟨0, 1, 2, 1 / 4⟩] = Except.error SimErr.configurationError ∧
    (sampleGenealogy demPair ⟨5⟩).1 ≠ Except.error SimErr.configurationError :=
  ⟨(admixture_configuration_error demPair [⟨0, 1, 2, 1 / 4⟩]).1.mpr
      ⟨⟨0, 1, 2, 1 / 4⟩, by simp, fun hc => absurd hc.2.1 (by norm_num)⟩,
   (admixture_configuration_error demPair [⟨0, 1, 2, 1 / 4⟩]).2 ⟨5⟩⟩

end Ipcoal
